import Mathlib

/-!
Verification development for the defi-ls language server
(`server/src/server.ts`).

The embedding works over documents represented as lists of Unicode code
points (`List Nat`).  The text scanning, performed by the server,, validation, diagnostics,
code-lens, quick-fix, ENS-lookup and hover logic is translated function by
function from the TypeScript source.  External collaborators are
parameters:

* `hash` — the keccak256 digest used by the web3 checksum routines, given as
  the list of hexadecimal nibble values of the digest of the (lowercased,
  unprefixed) address string;
* network lookups (ENS forward/reverse resolution, balance fetch) and the
  private-key primitives of `ethereumjs-wallet` / web3 accounts are fields
  of an `Ext` record of oracle functions.

Fallible JavaScript calls (promise rejections, thrown exceptions) are
modelled with `Option`/`Except`.
-/

deriving instance DecidableEq for Except

namespace DefiLs

/-- Code point of a character literal. -/
def str (s : String) : List Nat := s.data.map Char.toNat

/-- JavaScript `String.prototype.toLowerCase` on a single (ASCII) code point. -/
def toLowerChar (c : Nat) : Nat := if 65 ≤ c ∧ c ≤ 90 then c + 32 else c

/-- JavaScript `String.prototype.toUpperCase` on a single (ASCII) code point. -/
def toUpperChar (c : Nat) : Nat := if 97 ≤ c ∧ c ≤ 122 then c - 32 else c

/-- Character class `[0-9a-fA-F]` of the scanner regexes. -/
def isHexChar (c : Nat) : Bool :=
  decide ((48 ≤ c ∧ c ≤ 57) ∨ (97 ≤ c ∧ c ≤ 102) ∨ (65 ≤ c ∧ c ≤ 70))

/-- Character class `[0-9a-f]` (lower-case hexadecimal). -/
def isLowerHexChar (c : Nat) : Bool :=
  decide ((48 ≤ c ∧ c ≤ 57) ∨ (97 ≤ c ∧ c ≤ 102))

/-- Character class `[0-9A-F]` (upper-case hexadecimal). -/
def isUpperHexChar (c : Nat) : Bool :=
  decide ((48 ≤ c ∧ c ≤ 57) ∨ (65 ≤ c ∧ c ≤ 70))

/-- JavaScript regex word character `[A-Za-z0-9_]`, as used by `\b`. -/
def isWordChar (c : Nat) : Bool :=
  decide ((48 ≤ c ∧ c ≤ 57) ∨ (65 ≤ c ∧ c ≤ 90) ∨ (97 ≤ c ∧ c ≤ 122) ∨ c = 95)

/-- Alphanumeric `[0-9a-zA-Z]` (character class used by the boundary regex of `getWord`
and by the "hex/alnum" phrasing of the spec). -/
def isAlphaNum (c : Nat) : Bool :=
  decide ((48 ≤ c ∧ c ≤ 57) ∨ (65 ≤ c ∧ c ≤ 90) ∨ (97 ≤ c ∧ c ≤ 122))

/-- A candidate substring together with its position in the document
(`interface StringLocation`); the range is kept as start/end offsets, the
order-isomorphic image of the line/character positions produced by
`textDocument.positionAt`. -/
structure StringLocation where
  start : Nat
  stop : Nat
  content : List Nat
deriving DecidableEq

/-- `\b` after the 40 hex characters: end of input, or a non-word character. -/
def boundaryAfter : List Nat → Bool
  | [] => true
  | c :: _ => !isWordChar c

/-- Does `/0x[0-9a-fA-F]{40}\b/` match at the head of `l`?  Literal `0`,
literal `x`, forty hex characters, then a word boundary. -/
def addrMatchAt (l : List Nat) : Bool :=
  l[0]? == some 48 && l[1]? == some 120 && decide (42 ≤ l.length) &&
    ((l.drop 2).take 40).all isHexChar && boundaryAfter (l.drop 42)

/-- The `while ((m = pattern.exec(text)) && problems < 100)` loop of
`findPossibleEthereumAddresses`: left-to-right scan, non-overlapping
matches, resuming after each match.  `problems` is initialised to `0` and —
exactly as in the source — never incremented.  The structural `fuel`
argument (instantiated with the document length, an upper bound on the
number of loop steps) only makes the recursion kernel-computable. -/
def findAddrAux : Nat → List Nat → Nat → Nat → List StringLocation
  | 0, _, _, _ => []
  | _ + 1, [], _, _ => []
  | fuel + 1, c :: rest, i, problems =>
    if addrMatchAt (c :: rest) then
      if problems < 100 then
        ⟨i, i + 42, (c :: rest).take 42⟩ ::
          findAddrAux fuel ((c :: rest).drop 42) (i + 42) problems
      else []
    else findAddrAux fuel rest (i + 1) problems

/-- `findPossibleEthereumAddresses` (server.ts): find all matches of
`/0x[0-9a-fA-F]{40}\b/g`, each reported with its exact range and matched
substring. -/
def findPossibleEthereumAddresses (text : List Nat) : List StringLocation :=
  findAddrAux text.length text 0 0

/-- `normalizeHex` (server.ts): prepend `0x` if absent. -/
def normalizeHex (hex : List Nat) : List Nat :=
  if hex.take 2 = [48, 120] then hex else 48 :: 120 :: hex

/-- Does `/[0-9a-fA-F]{64}\b/` match at the head of `l`? -/
def pkMatchAt (l : List Nat) : Bool :=
  decide (64 ≤ l.length) && (l.take 64).all isHexChar && boundaryAfter (l.drop 64)

/-- The scan loop of `findPossiblePrivateKeys`, with the same never-incremented
`problems` counter as the address scan (fuel as in `findAddrAux`). -/
def findPkAux : Nat → List Nat → Nat → Nat → List StringLocation
  | 0, _, _, _ => []
  | _ + 1, [], _, _ => []
  | fuel + 1, c :: rest, i, problems =>
    if pkMatchAt (c :: rest) then
      if problems < 100 then
        ⟨i, i + 64, normalizeHex ((c :: rest).take 64)⟩ ::
          findPkAux fuel ((c :: rest).drop 64) (i + 64) problems
      else []
    else findPkAux fuel rest (i + 1) problems

/-- `findPossiblePrivateKeys` (server.ts): all matches of
`/[0-9a-fA-F]{64}\b/g`, contents normalized with a `0x` prefix. -/
def findPossiblePrivateKeys (text : List Nat) : List StringLocation :=
  findPkAux text.length text 0 0

/-! ## web3 address utilities

`web3.utils.isAddress` / `toChecksumAddress` / `checkAddressChecksum`
(external library functions called by the server), parameterized by the
keccak256 digest `hash`: given the lowercased, `0x`-stripped address
characters, `hash` returns the hexadecimal nibble values of the digest
(`parseInt(addressHash[i], 16)`).  Positions past the end of the digest
behave like the JavaScript `NaN` comparisons (no constraint / keep case). -/

/-- `address.replace(/^0x/i, '')`: strip a leading `0x` or `0X`. -/
def strip0x (l : List Nat) : List Nat :=
  if l.take 2 = [48, 120] ∨ l.take 2 = [48, 88] then l.drop 2 else l

/-- The test `/^(0x)?[0-9a-f]{40}$/i`: optional (case-insensitive) `0x`
prefix and exactly 40 hexadecimal characters of either case. -/
def isAddressShapeCI (l : List Nat) : Bool :=
  let body := strip0x l
  decide (body.length = 40) && body.all isHexChar

/-- One output character of the web3 checksum loop: uppercase when the
corresponding digest nibble is `> 7`, else keep the (lowercase) character. -/
def checksumChar (nib : Option Nat) (c : Nat) : Nat :=
  match nib with
  | some n => if n > 7 then toUpperChar c else c
  | none => c

/-- The `for` loop of `toChecksumAddress`, walking the lowercase body with
the digest nibbles. -/
def checksumMap (h : List Nat) : Nat → List Nat → List Nat
  | _, [] => []
  | i, c :: cs => checksumChar h[i]? c :: checksumMap h (i + 1) cs

/-- `web3.utils.toChecksumAddress`: `none` models the thrown exception on a
string that is not a 40-hex-digit address. -/
def toChecksumAddress (hash : List Nat → List Nat) (address : List Nat) :
    Option (List Nat) :=
  if isAddressShapeCI address then
    let a := strip0x (address.map toLowerChar)
    some (48 :: 120 :: checksumMap (hash a) 0 a)
  else none

/-- One position of the web3 `checkAddressChecksum` loop: the condition under
which the loop does *not* return `false` at index `i`.  A digest position
past the end (`none`, JavaScript `NaN`) satisfies neither comparison, so it
imposes no constraint. -/
def checksumCharOk (nib : Option Nat) (c : Nat) : Bool :=
  match nib with
  | some n => !((decide (n > 7) && decide (toUpperChar c ≠ c)) ||
                (decide (n ≤ 7) && decide (toLowerChar c ≠ c)))
  | none => true

/-- `web3.utils.checkAddressChecksum`: every one of the 40 positions must
pass the per-character case check against the digest of the lowercased
body. -/
def checkAddressChecksum (hash : List Nat → List Nat) (address : List Nat) :
    Bool :=
  let a := strip0x address
  let h := hash (a.map toLowerChar)
  (List.range 40).all fun i => checksumCharOk h[i]? (a.getD i 0)

/-- `web3.utils.isAddress`, as called by `isValidEthereumAddress`
(server.ts): right shape, then all-lowercase or all-uppercase bodies are
accepted outright, otherwise the mixed-case checksum must hold. -/
def isValidEthereumAddress (hash : List Nat → List Nat) (address : List Nat) :
    Bool :=
  if !isAddressShapeCI address then false
  else if (strip0x address).all isLowerHexChar ||
          (strip0x address).all isUpperHexChar then true
  else checkAddressChecksum hash address

/-! ## Diagnostics (`validateTextDocument`, server.ts) -/

/-- A published diagnostic: severity (1 error, 2 warning), offset range,
message and code.  (The optional related-information block only repeats the
range with a fixed detail string and is elided.) -/
structure Diag where
  severity : Nat
  range : Nat × Nat
  message : List Nat
  code : List Nat
deriving DecidableEq

/-- The body of the `forEach` in `validateTextDocument` for one candidate: an
invalid-address error, a not-checksummed warning, or nothing.  The `none`
fallback of the inner match is unreachable: `isValidEthereumAddress`
guarantees `toChecksumAddress` succeeds. -/
def diagFor (hash : List Nat → List Nat) (e : StringLocation) : Option Diag :=
  if !isValidEthereumAddress hash e.content then
    some ⟨1, (e.start, e.stop),
      e.content ++ str " is not a valid Ethereum address",
      str "NotValidAddress"⟩
  else
    match toChecksumAddress hash e.content with
    | some checksumAddress =>
      if e.content ≠ checksumAddress then
        some ⟨2, (e.start, e.stop),
          e.content ++ str " is not a checksum address",
          str "NotChecksumAddress"⟩
      else none
    | none => none

/-- The candidate loop of `validateTextDocument`: `problems` starts at `0`
and is incremented for every candidate inspected while under the
`maxNumberOfProblems` budget, whether or not a diagnostic is pushed. -/
def validateLoop (hash : List Nat → List Nat) (maxProblems : Nat) :
    List StringLocation → Nat → List Diag
  | [], _ => []
  | e :: rest, problems =>
    if problems < maxProblems then
      match diagFor hash e with
      | some d => d :: validateLoop hash maxProblems rest (problems + 1)
      | none => validateLoop hash maxProblems rest (problems + 1)
    else validateLoop hash maxProblems rest problems

/-- `validateTextDocument` (server.ts), restricted to its observable
output: the diagnostics list sent for the document. -/
def validateTextDocument (hash : List Nat → List Nat) (maxProblems : Nat)
    (text : List Nat) : List Diag :=
  validateLoop hash maxProblems (findPossibleEthereumAddresses text) 0

/-! ## External collaborators -/

/-- Oracle functions for the external collaborators of the server:
the keccak digest used by the web3 checksum utilities, the ENS resolver
(`ens.reverse(addr).name()` and `ens.resolver(name).addr()`, `none`
modelling a rejected promise), the balance fetch
(`web3connection.eth.getBalance`, `Except.error` modelling a rejection),
the private-key primitives (the internal try/catch of `isPrivateKey` as a
boolean, `toPublicKey`), and the web3 `fromWei` number formatting. -/
structure Ext where
  hash : List Nat → List Nat
  reverse : List Nat → Option (List Nat)
  resolveAddr : List Nat → Option (List Nat)
  getBalance : List Nat → Except (List Nat) Nat
  isPK : List Nat → Bool
  toPub : List Nat → List Nat
  fromWei : Nat → List Nat

/-! ## Code lens (`connection.onCodeLens`, server.ts) -/

/-- A code lens prior to resolution: its range and its
`[codeLensType, network, content]` data triple. -/
structure CodeLens where
  range : Nat × Nat
  data : List (List Nat)
deriving DecidableEq

/-- `NETWORKS` (server.ts). -/
def NETWORKS : List (List Nat) :=
  [str "mainnet", str "ropsten", str "kovan", str "rinkeby", str "goerli"]

/-- `pushEthereumAddressCodeLenses` (server.ts): push one lens per entry of
`NETWORKS` onto the accumulated list. -/
def pushEthereumAddressCodeLenses (codeLensType : List Nat) (range : Nat × Nat)
    (content : List Nat) (codeLenses : List CodeLens) : List CodeLens :=
  NETWORKS.foldl (fun acc network => acc ++ [⟨range, [codeLensType, network, content]⟩])
    codeLenses

/-- `connection.onCodeLens` (server.ts): lenses for every valid address
candidate, then for every decodable private-key candidate (with the derived
public address as content). -/
def onCodeLens (x : Ext) (text : List Nat) : List CodeLens :=
  let afterAddresses :=
    (findPossibleEthereumAddresses text).foldl
      (fun acc e =>
        if isValidEthereumAddress x.hash e.content then
          pushEthereumAddressCodeLenses (str "EthAddress") (e.start, e.stop)
            e.content acc
        else acc) []
  (findPossiblePrivateKeys text).foldl
    (fun acc e =>
      if x.isPK e.content then
        pushEthereumAddressCodeLenses (str "EthPrivateKey") (e.start, e.stop)
          (x.toPub e.content) acc
      else acc) afterAddresses

/-! ## Quick fixes (`connection.onCodeAction`, server.ts) -/

/-- A quick-fix code action: title, the text edits of the workspace edit
(range, replacement) for the single document, and the attached
diagnostics. -/
structure CodeAction where
  title : List Nat
  edits : List ((Nat × Nat) × List Nat)
  diags : List Diag
deriving DecidableEq

/-- `textDocument.getText(range)` for an offset range. -/
def getTextRange (text : List Nat) (r : Nat × Nat) : List Nat :=
  (text.drop r.1).take (r.2 - r.1)

/-- `getQuickFix` (server.ts): one code action holding exactly one text
edit that replaces `range` with `replacement`. -/
def getQuickFix (diagnostic : Diag) (title : List Nat) (range : Nat × Nat)
    (replacement : List Nat) : CodeAction :=
  ⟨title, [(range, replacement)], [diagnostic]⟩

/-- `getQuickFixes` (server.ts): for each diagnostic with code
`NotChecksumAddress`, push one quick fix whose replacement is
`toChecksumAddress` of the document text at the range of the diagnostic.
`none` models the exception `web3.utils.toChecksumAddress` throws (and the
handler does not catch) when that text is not address-shaped. -/
def getQuickFixes (hash : List Nat → List Nat) (text : List Nat) :
    List Diag → Option (List CodeAction)
  | [] => some []
  | d :: rest =>
    if d.code = str "NotChecksumAddress" then
      match toChecksumAddress hash (getTextRange text d.range) with
      | none => none
      | some replacement =>
        (getQuickFixes hash text rest).map
          (fun as =>
            getQuickFix d (str "Convert to checksum address") d.range
              replacement :: as)
    else getQuickFixes hash text rest

/-! ## ENS lookups (server.ts) -/

/-- `ENSLookup` (server.ts): forward resolution; a rejected promise is
caught and leaves the result `""`. -/
def ENSLookup (x : Ext) (name : List Nat) : List Nat :=
  match x.resolveAddr name with
  | some addr => addr
  | none => []

/-- `reverseENSLookup` (server.ts): reverse lookup, trusted only when the
checksum-normalized forward resolution of the returned name equals the
checksum-normalized input address.  Any rejection — including the
exception `toChecksumAddress` throws on a non-address — is caught by the
trailing `.catch`, leaving the result `""`. -/
def reverseENSLookup (x : Ext) (address : List Nat) : List Nat :=
  match x.reverse address with
  | none => []
  | some name =>
    let addr := ENSLookup x name
    match toChecksumAddress x.hash address, toChecksumAddress x.hash addr with
    | some a, some b => if a = b then name else []
    | _, _ => []

/-! ## Hover (`connection.onHover`, server.ts) -/

/-- Boundary character of the `getWord` regex `/[^0-9a-zA-Z.]{1}/`. -/
def isBoundaryChar (c : Nat) : Bool := !(isAlphaNum c || c == 46)

/-- `indexOfRegex(s, boundaryRegex)` (index-of-regex package): index of the
first boundary character, or `-1`. -/
def indexOfBoundary (l : List Nat) : Int :=
  match l.findIdx? (fun c => isBoundaryChar c) with
  | some i => (i : Int)
  | none => -1

/-- `lastIndexOfRegex(s, boundaryRegex)`: index of the last boundary
character, or `-1`. -/
def lastIndexOfBoundary (l : List Nat) : Int :=
  match l.reverse.findIdx? (fun c => isBoundaryChar c) with
  | some i => (l.length : Int) - 1 - (i : Int)
  | none => -1

/-- JavaScript `String.prototype.substring`: both arguments clamped into
`[0, length]` and swapped when out of order. -/
def jsSubstring (l : List Nat) (a b : Int) : List Nat :=
  let len : Int := l.length
  let a' := (min (max a 0) len).toNat
  let b' := (min (max b 0) len).toNat
  let lo := min a' b'
  let hi := max a' b'
  (l.drop lo).take (hi - lo)

/-- `getWord` (server.ts): expand from `index` to the enclosing run
delimited by non-word boundary characters (word characters here are
alphanumerics and `.`). -/
def getWord (text : List Nat) (index : Nat) : List Nat :=
  let beginSubstring := text.take index
  let endSubstring := text.drop index
  let first : Int := lastIndexOfBoundary beginSubstring + 1
  let last : Int := (index : Int) + indexOfBoundary endSubstring
  jsSubstring text (if first ≠ -1 then first else 0)
    (if last ≠ -1 then last else (text.length : Int) - 1)

/-- `getHoverMarkdownForAddress` (server.ts).  The reverse-ENS section is
added only when the (internally caught) lookup returns a name; the awaited
`getBalance` call is *not* wrapped in any catch, so its rejection
propagates (`Except.error`).  The Amberdata token request is issued
fire-and-forget: its callback reassigns a local variable after the
function has already returned, so it never affects the produced markdown
and is elided here. -/
def getHoverMarkdownForAddress (x : Ext) (address : List Nat) :
    Except (List Nat) (List Nat) :=
  let buf := str "**[Ethereum]**\n\n" ++ str "**Address**: " ++ address ++ str "\n\n"
  let ensName := reverseENSLookup x address
  let buf := if ensName ≠ [] then
      buf ++ str "**ENS Name**: " ++ ensName ++ str "\n\n"
    else buf
  match x.getBalance address with
  | Except.error e => Except.error e
  | Except.ok balance =>
    let buf := if balance > 0 then
        buf ++ str "**Ether Balance**:\n\n    " ++ x.fromWei balance ++ str " ETH\n\n"
      else buf
    Except.ok buf

/-- `connection.onHover` (server.ts), for a request whose cursor line text
and in-line offset are `lineText` / `index` (the line extraction itself is
done by the external text-document library).  `Except.ok buf` is the hover
whose contents are `buf`; `Except.error` is a rejection propagating to the
editor-facing response. -/
def onHover (x : Ext) (lineText : List Nat) (index : Nat) :
    Except (List Nat) (List Nat) :=
  let word := getWord lineText index
  if isValidEthereumAddress x.hash word then
    getHoverMarkdownForAddress x word
  else
    let normalized := normalizeHex word
    if x.isPK normalized then
      getHoverMarkdownForAddress x (x.toPub normalized)
    else
      let address := ENSLookup x word
      if address ≠ [] then getHoverMarkdownForAddress x address
      else Except.ok []

/-! ## Resolution cache layer

The TTL cache layer belongs to a revision of this repository that is not
under `src/` (only the spec and the `defi.cacheDuration` configuration
surface describe it), so it is modelled from the spec. -/

/-- Modelled from the spec: a cache entry `(timestamp, value)`. -/
structure CacheEntry (α : Type) where
  timestamp : Nat
  value : α
deriving DecidableEq

/-- Modelled from the spec: `isFresh(entry) = now - entry.timestamp < ttl`
(Nat time, matching the millisecond clock). -/
def isFresh {α : Type} (ttl now : Nat) (e : CacheEntry α) : Bool :=
  decide (now - e.timestamp < ttl)

/-- Modelled from the spec: `put(key, value, timestamp=now)`. -/
def cachePut {α : Type} (cache : List (List Nat × CacheEntry α)) (k : List Nat)
    (v : α) (now : Nat) : List (List Nat × CacheEntry α) :=
  (k, ⟨now, v⟩) :: cache

/-- Modelled from the spec: `get(key) -> value | absent`. -/
def cacheGet {α : Type} (cache : List (List Nat × CacheEntry α)) (k : List Nat) :
    Option (CacheEntry α) :=
  (cache.find? (fun p => p.1 == k)).map (fun p => p.2)

/-- Modelled from the spec: a caller following the cache contract — serve a
cached value only when `isFresh`, otherwise refetch.  The boolean reports
whether a refetch was triggered. -/
def lookupThroughCache {α : Type} (ttl now : Nat)
    (cache : List (List Nat × CacheEntry α)) (fetch : List Nat → α)
    (k : List Nat) : α × Bool :=
  match cacheGet cache k with
  | some e => if isFresh ttl now e then (e.value, false) else (fetch k, true)
  | none => (fetch k, true)

/-- Does `pat` occur at the head of the second list? -/
def startsWithSeq : List Nat → List Nat → Bool
  | [], _ => true
  | _ :: _, [] => false
  | p :: ps, c :: cs => (p == c) && startsWithSeq ps cs

/-- Does `pat` occur as a contiguous substring of `l`? -/
def containsSeq (pat : List Nat) : List Nat → Bool
  | [] => startsWithSeq pat []
  | c :: rest => startsWithSeq pat (c :: rest) || containsSeq pat rest

/-! ## Concrete fixtures (keccak instantiations and documents used by the
witness and counterexample theorems) -/

/-- A digest oracle whose nibbles are all `0` (every checksum position kept
lowercase). -/
def hash0 : List Nat → List Nat := fun _ => List.replicate 64 0

/-- A digest oracle whose nibbles are all `8` (every checksum position
uppercased). -/
def hash8 : List Nat → List Nat := fun _ => List.replicate 64 8

/-- `0x` followed by forty `a` characters. -/
def addrLower : List Nat := str "0x" ++ List.replicate 40 97

/-- `0x` followed by forty `A` characters. -/
def addrUpper : List Nat := str "0x" ++ List.replicate 40 65

/-- `0xAb` followed by thirty-eight `a` characters: mixed case, so under
`hash0` (whose canonical form is all-lowercase) its checksum is wrong. -/
def addrBad : List Nat := str "0x" ++ [65, 98] ++ List.replicate 38 97

/-- `0x` followed by forty `b` characters. -/
def addrOther : List Nat := str "0x" ++ List.replicate 40 98

/-- A document holding one already-checksummed (under `hash0`) address. -/
def exampleDoc : List Nat := addrLower ++ str " "

/-- A document whose first candidate is valid and checksummed under `hash0`
and whose second candidate is invalid. -/
def twoCandDoc : List Nat := addrLower ++ str " " ++ addrBad ++ str " "

/-- 101 address candidates. -/
def doc101 : List Nat := (List.replicate 101 (addrLower ++ str " ")).flatten

/-- 101 private-key candidates. -/
def docPk101 : List Nat := (List.replicate 101 (List.replicate 64 97 ++ str " ")).flatten

/-- `0x`, forty `0` characters, then `_` — an underscore directly after the
40 hex digits. -/
def underscoreDoc : List Nat := str "0x" ++ List.replicate 40 48 ++ [95]

/-- Baseline oracle record: every network lookup fails or is empty, the
balance fetch resolves to `0`. -/
def extBase : Ext where
  hash := hash0
  reverse := fun _ => none
  resolveAddr := fun _ => none
  getBalance := fun _ => Except.ok 0
  isPK := fun _ => false
  toPub := fun a => a
  fromWei := fun _ => str "0"

/-- Oracles whose balance fetch rejects. -/
def extBalErr : Ext := { extBase with getBalance := fun _ => Except.error (str "netfail") }

/-- Oracles where the reverse record for any address claims `vitalik.eth`,
but forward resolution of any name yields `addrOther` — a spoofed reverse
record. -/
def extSpoof : Ext :=
  { extBase with
    reverse := fun _ => some (str "vitalik.eth")
    resolveAddr := fun _ => some addrOther }

end DefiLs

namespace DefiLs

/-! ## Character-level lemmas -/

theorem toLowerChar_toUpperChar {c : Nat} (h : isLowerHexChar c = true) :
    toLowerChar (toUpperChar c) = c := by
  simp only [isLowerHexChar, decide_eq_true_eq] at h
  simp only [toUpperChar, toLowerChar]
  split_ifs <;> omega

theorem toLowerChar_of_lowerHex {c : Nat} (h : isLowerHexChar c = true) :
    toLowerChar c = c := by
  simp only [isLowerHexChar, decide_eq_true_eq] at h
  simp only [toLowerChar]
  split_ifs <;> omega

theorem lowerHex_toLowerChar {c : Nat} (h : isHexChar c = true) :
    isLowerHexChar (toLowerChar c) = true := by
  simp only [isHexChar, decide_eq_true_eq] at h
  simp only [isLowerHexChar, toLowerChar, decide_eq_true_eq]
  split_ifs <;> omega

theorem hex_checksumChar (nib : Option Nat) {c : Nat}
    (h : isLowerHexChar c = true) : isHexChar (checksumChar nib c) = true := by
  simp only [isLowerHexChar, decide_eq_true_eq] at h
  rcases nib with _ | n <;>
    simp only [checksumChar, toUpperChar, isHexChar, decide_eq_true_eq]
  · omega
  · split_ifs <;> omega

theorem toLowerChar_checksumChar (nib : Option Nat) {c : Nat}
    (h : isLowerHexChar c = true) : toLowerChar (checksumChar nib c) = c := by
  rcases nib with _ | n
  · exact toLowerChar_of_lowerHex h
  · simp only [checksumChar]
    split_ifs
    · exact toLowerChar_toUpperChar h
    · exact toLowerChar_of_lowerHex h

/-! ## Checksum-loop lemmas -/

theorem checksumMap_length (hl : List Nat) :
    ∀ (a : List Nat) (i : Nat), (checksumMap hl i a).length = a.length := by
  intro a
  induction a with
  | nil => intro i; rfl
  | cons c cs ih => intro i; simp [checksumMap, ih]

theorem checksumMap_map_toLowerChar (hl : List Nat) :
    ∀ (a : List Nat) (i : Nat), (∀ c ∈ a, isLowerHexChar c = true) →
      (checksumMap hl i a).map toLowerChar = a := by
  intro a
  induction a with
  | nil => intro i _; rfl
  | cons c cs ih =>
    intro i h
    simp only [checksumMap, List.map_cons]
    rw [toLowerChar_checksumChar _ (h c (by simp)),
      ih (i + 1) (fun d hd => h d (by simp [hd]))]

theorem checksumMap_all_hex (hl : List Nat) :
    ∀ (a : List Nat) (i : Nat), (∀ c ∈ a, isLowerHexChar c = true) →
      ∀ c ∈ checksumMap hl i a, isHexChar c = true := by
  intro a
  induction a with
  | nil => intro i _ c hc; simp [checksumMap] at hc
  | cons c cs ih =>
    intro i h d hd
    simp only [checksumMap, List.mem_cons] at hd
    rcases hd with rfl | hd
    · exact hex_checksumChar _ (h c (by simp))
    · exact ih (i + 1) (fun e he => h e (by simp [he])) d hd

/-! ## `strip0x` lemmas -/

theorem toLowerChar_eq_iff48 {c : Nat} : toLowerChar c = 48 ↔ c = 48 := by
  simp only [toLowerChar]
  split_ifs <;> constructor <;> intro <;> omega

theorem toLowerChar_eq_iff120 {c : Nat} :
    toLowerChar c = 120 ↔ (c = 120 ∨ c = 88) := by
  simp only [toLowerChar]
  split_ifs <;> constructor <;> intro <;> omega

theorem toLowerChar_ne88 {c : Nat} : toLowerChar c ≠ 88 := by
  simp only [toLowerChar]
  split_ifs <;> omega

theorem strip0x_map_toLowerChar (l : List Nat) :
    strip0x (l.map toLowerChar) = (strip0x l).map toLowerChar := by
  rcases l with _ | ⟨c1, l⟩
  · rfl
  rcases l with _ | ⟨c2, rest⟩
  · simp [strip0x]
  · simp only [List.map_cons, strip0x, List.take_succ_cons, List.take_zero,
      List.drop_succ_cons, List.drop_zero, List.cons.injEq, and_true]
    by_cases hb : (c1 = 48 ∧ c2 = 120) ∨ (c1 = 48 ∧ c2 = 88)
    · have hA : (toLowerChar c1 = 48 ∧ toLowerChar c2 = 120) ∨
          (toLowerChar c1 = 48 ∧ toLowerChar c2 = 88) := by
        left
        constructor
        · rw [toLowerChar_eq_iff48]
          rcases hb with ⟨h, _⟩ | ⟨h, _⟩ <;> exact h
        · rw [toLowerChar_eq_iff120]
          rcases hb with ⟨_, h⟩ | ⟨_, h⟩ <;> simp [h]
      rw [if_pos hA, if_pos hb]
    · have hA : ¬((toLowerChar c1 = 48 ∧ toLowerChar c2 = 120) ∨
          (toLowerChar c1 = 48 ∧ toLowerChar c2 = 88)) := by
        intro h
        apply hb
        rcases h with ⟨h1, h2⟩ | ⟨h1, h2⟩
        · rw [toLowerChar_eq_iff48] at h1
          rw [toLowerChar_eq_iff120] at h2
          rcases h2 with h2 | h2
          · exact Or.inl ⟨h1, h2⟩
          · exact Or.inr ⟨h1, h2⟩
        · exact absurd h2 toLowerChar_ne88
      rw [if_neg hA, if_neg hb]
      simp

end DefiLs

namespace DefiLs

/-! ## Shape lemmas for `toChecksumAddress` -/

theorem shape_facts {address : List Nat} (h : isAddressShapeCI address = true) :
    (strip0x address).length = 40 ∧ ∀ c ∈ strip0x address, isHexChar c = true := by
  simp only [isAddressShapeCI, Bool.and_eq_true, decide_eq_true_eq,
    List.all_eq_true] at h
  exact ⟨h.1, h.2⟩

theorem lowerBody_facts {address : List Nat}
    (h : isAddressShapeCI address = true) :
    (strip0x (address.map toLowerChar)).length = 40 ∧
      ∀ c ∈ strip0x (address.map toLowerChar), isLowerHexChar c = true := by
  rw [strip0x_map_toLowerChar]
  obtain ⟨hlen, hhex⟩ := shape_facts h
  refine ⟨by simp [hlen], ?_⟩
  intro c hc
  rw [List.mem_map] at hc
  obtain ⟨d, hd, rfl⟩ := hc
  exact lowerHex_toLowerChar (hhex d hd)

theorem toChecksumAddress_isSome_of_shape {hash : List Nat → List Nat}
    {address : List Nat} (h : isAddressShapeCI address = true) :
    toChecksumAddress hash address =
      some (48 :: 120 :: checksumMap (hash (strip0x (address.map toLowerChar))) 0
        (strip0x (address.map toLowerChar))) := by
  simp [toChecksumAddress, h]

/-- C7 core: the output of `toChecksumAddress` is itself a fixed point. -/
theorem toChecksumAddress_fix (hash : List Nat → List Nat) (x y : List Nat)
    (h : toChecksumAddress hash x = some y) :
    toChecksumAddress hash y = some y := by
  by_cases hs : isAddressShapeCI x = true
  · rw [toChecksumAddress_isSome_of_shape hs] at h
    obtain ⟨hlen, hlow⟩ := lowerBody_facts hs
    set a := strip0x (x.map toLowerChar) with ha
    have hy : y = 48 :: 120 :: checksumMap (hash a) 0 a := by
      exact (Option.some.injEq _ _ ▸ h).symm
    have hstripy : strip0x y = checksumMap (hash a) 0 a := by
      rw [hy]
      simp [strip0x]
    have hshapey : isAddressShapeCI y = true := by
      simp only [isAddressShapeCI, Bool.and_eq_true, decide_eq_true_eq,
        List.all_eq_true, hstripy]
      refine ⟨by rw [checksumMap_length, hlen], ?_⟩
      exact checksumMap_all_hex _ _ _ hlow
    have hlowy : strip0x (y.map toLowerChar) = a := by
      rw [hy]
      have h48 : toLowerChar 48 = 48 := by decide
      have h120 : toLowerChar 120 = 120 := by decide
      simp only [List.map_cons, h48, h120, strip0x, List.take_succ_cons,
        List.take_zero, List.drop_succ_cons, List.drop_zero]
      rw [if_pos (by simp)]
      exact checksumMap_map_toLowerChar _ _ _ hlow
    rw [toChecksumAddress_isSome_of_shape hshapey, hlowy, hy]
  · simp [toChecksumAddress, hs] at h

end DefiLs

namespace DefiLs

/-! ## Diagnostics lemmas -/

theorem shape_of_valid {hash : List Nat → List Nat} {x : List Nat}
    (h : isValidEthereumAddress hash x = true) : isAddressShapeCI x = true := by
  by_cases hs : isAddressShapeCI x = true
  · exact hs
  · simp [isValidEthereumAddress, hs] at h

theorem diagFor_code {hash : List Nat → List Nat} {e : StringLocation}
    {d : Diag} (h : diagFor hash e = some d) :
    d.code = str "NotValidAddress" ∨ d.code = str "NotChecksumAddress" := by
  unfold diagFor at h
  split_ifs at h with h1
  · exact Or.inl (by cases h; rfl)
  · rcases hc : toChecksumAddress hash e.content with _ | cs <;> rw [hc] at h <;>
      dsimp only at h
    · exact Option.noConfusion h
    · split_ifs at h with h2
      exact Or.inr (by cases h; rfl)

theorem diagFor_range {hash : List Nat → List Nat} {e : StringLocation}
    {d : Diag} (h : diagFor hash e = some d) :
    d.range = (e.start, e.stop) := by
  unfold diagFor at h
  split_ifs at h with h1
  · cases h; rfl
  · rcases hc : toChecksumAddress hash e.content with _ | cs <;> rw [hc] at h <;>
      dsimp only at h
    · exact Option.noConfusion h
    · split_ifs at h with h2
      cases h; rfl

theorem diagFor_none_of_checksummed {hash : List Nat → List Nat}
    {e : StringLocation} (hv : isValidEthereumAddress hash e.content = true)
    (hcs : (toChecksumAddress hash e.content).getD [] = e.content) :
    diagFor hash e = none := by
  have hshape := shape_of_valid hv
  have hsome := @toChecksumAddress_isSome_of_shape hash e.content hshape
  unfold diagFor
  rw [if_neg (by simp [hv]), hsome]
  rw [hsome] at hcs
  simp only [Option.getD_some] at hcs
  simp [hcs]

theorem validateLoop_eq (hash : List Nat → List Nat) (max : Nat) :
    ∀ (cands : List StringLocation) (p : Nat),
      validateLoop hash max cands p =
        (cands.take (max - p)).filterMap (diagFor hash) := by
  intro cands
  induction cands with
  | nil => intro p; simp [validateLoop]
  | cons e rest ih =>
    intro p
    by_cases hp : p < max
    · have h1 : max - p = (max - (p + 1)) + 1 := by omega
      rw [h1]
      simp only [validateLoop, if_pos hp, List.take_succ_cons,
        List.filterMap_cons]
      cases hd : diagFor hash e with
      | none => simp [hd, ih (p + 1)]
      | some d => simp [hd, ih (p + 1)]
    · have h1 : max - p = 0 := by omega
      simp only [validateLoop, if_neg hp, h1, List.take_zero,
        List.filterMap_nil]
      rw [ih p, h1]
      simp

theorem validateTextDocument_eq (hash : List Nat → List Nat) (max : Nat)
    (text : List Nat) :
    validateTextDocument hash max text =
      ((findPossibleEthereumAddresses text).take max).filterMap
        (diagFor hash) := by
  rw [validateTextDocument, validateLoop_eq, Nat.sub_zero]

end DefiLs

namespace DefiLs

/-! ## Scanner characterization lemmas -/

theorem findAddrAux_start_ge :
    ∀ (fuel : Nat) (l : List Nat) (i p : Nat) (loc : StringLocation),
      loc ∈ findAddrAux fuel l i p → i ≤ loc.start := by
  intro fuel
  induction fuel with
  | zero => intro l i p loc h; simp [findAddrAux] at h
  | succ fuel ih =>
    intro l i p loc h
    rcases l with _ | ⟨c, rest⟩
    · simp [findAddrAux] at h
    · simp only [findAddrAux] at h
      split_ifs at h with h1 h2
      · rcases List.mem_cons.mp h with rfl | h3
        · simp
        · have := ih _ _ _ loc h3; omega
      · simp at h
      · have := ih _ _ _ loc h; omega

theorem findAddrAux_any_start_lt (fuel : Nat) (l : List Nat) (i p s : Nat)
    (h : s < i) :
    (findAddrAux fuel l i p).any (fun loc => loc.start == s) = false := by
  rw [List.any_eq_false]
  intro loc hloc
  simp only [beq_iff_eq]
  intro heq
  have := findAddrAux_start_ge fuel l i p loc hloc
  omega

theorem all_getElem? {p : Nat → Bool} {xs : List Nat} (h : xs.all p = true)
    {k : Nat} {c : Nat} (hk : xs[k]? = some c) : p c = true := by
  rw [List.all_eq_true] at h
  exact h c (List.getElem?_mem hk)

theorem boundary_getElem {m : List Nat} (h : boundaryAfter m = true) {c : Nat}
    (hc : m[0]? = some c) : isWordChar c = false := by
  rcases m with _ | ⟨d, m⟩
  · simp at hc
  · simp only [List.getElem?_cons_zero, Option.some.injEq] at hc
    subst hc
    simp only [boundaryAfter, Bool.not_eq_true'] at h
    exact h

theorem no_internal_match {l : List Nat} (h : addrMatchAt l = true) :
    ∀ j, 1 ≤ j → j < 42 → addrMatchAt (l.drop j) = false := by
  intro j hj1 hj2
  simp only [addrMatchAt, Bool.and_eq_true, beq_iff_eq, decide_eq_true_eq] at h
  obtain ⟨⟨⟨⟨h0, h1⟩, hlen⟩, hhex⟩, hbnd⟩ := h
  rw [Bool.eq_false_iff]
  intro hm
  simp only [addrMatchAt, Bool.and_eq_true, beq_iff_eq, decide_eq_true_eq] at hm
  obtain ⟨⟨⟨⟨hm0, hm1⟩, hmlen⟩, hmhex⟩, hmbnd⟩ := hm
  rw [List.getElem?_drop] at hm1
  rcases Nat.lt_or_ge (j + 1) 42 with hj3 | hj3
  · -- position j+1 lies in the hex body, but 120 is not a hex character
    have hidx : l[2 + (j - 1)]? = some 120 := by
      have : 2 + (j - 1) = j + 1 := by omega
      rw [this]; exact hm1
    have : ((l.drop 2).take 40)[j - 1]? = some 120 := by
      rw [List.getElem?_take_of_lt (by omega), List.getElem?_drop]
      exact hidx
    have := all_getElem? hhex this
    simp [isHexChar] at this
  · -- j = 41: position 42 carries the word boundary, but 120 is a word char
    have hj4 : j = 41 := by omega
    subst hj4
    have : (l.drop 42)[0]? = some 120 := by
      rw [List.getElem?_drop]
      exact hm1
    have := boundary_getElem hbnd this
    simp [isWordChar] at this

end DefiLs

namespace DefiLs

/-- Which positions the scan loop reports: a candidate starts at offset
`i + j` exactly when the address regex matches at `j` characters into the
remaining input. -/
theorem findAddrAux_any (fuel : Nat) :
    ∀ (l : List Nat), l.length ≤ fuel → ∀ (i j : Nat),
      ((findAddrAux fuel l i 0).any fun loc => loc.start == i + j) =
        addrMatchAt (l.drop j) := by
  induction fuel with
  | zero =>
    intro l hl i j
    have hnil : l = [] := List.length_eq_zero.mp (Nat.le_zero.mp hl)
    subst hnil
    simp [findAddrAux, addrMatchAt]
  | succ fuel ih =>
    intro l hl i j
    rcases l with _ | ⟨c, rest⟩
    · simp [findAddrAux, addrMatchAt]
    simp only [findAddrAux]
    by_cases hm : addrMatchAt (c :: rest) = true
    · rw [if_pos hm, if_pos (by omega : (0 : Nat) < 100)]
      rcases Nat.lt_or_ge j 42 with hj | hj
      · rcases Nat.eq_zero_or_pos j with rfl | hj1
        · simp only [List.any_cons, List.drop_zero, hm]
          simp
        · simp only [List.any_cons]
          have h1 : ((⟨i, i + 42, (c :: rest).take 42⟩ :
              StringLocation).start == i + j) = false := by
            simp only [beq_eq_false_iff_ne, ne_eq]
            omega
          rw [h1, Bool.false_or,
            findAddrAux_any_start_lt fuel _ (i + 42) 0 (i + j) (by omega)]
          exact (no_internal_match hm j hj1 hj).symm
      · simp only [List.any_cons]
        have h1 : ((⟨i, i + 42, (c :: rest).take 42⟩ :
            StringLocation).start == i + j) = false := by
          simp only [beq_eq_false_iff_ne, ne_eq]
          omega
        rw [h1, Bool.false_or]
        have hle : ((c :: rest).drop 42).length ≤ fuel := by
          simp only [List.length_drop, List.length_cons] at hl ⊢
          omega
        have h2 : i + j = (i + 42) + (j - 42) := by omega
        rw [h2, ih _ hle (i + 42) (j - 42), List.drop_drop]
        have h3 : 42 + (j - 42) = j := by omega
        rw [h3]
    · rw [if_neg hm]
      rcases Nat.eq_zero_or_pos j with rfl | hj1
      · rw [findAddrAux_any_start_lt fuel rest (i + 1) 0 (i + 0) (by omega),
          List.drop_zero]
        exact (Bool.eq_false_iff.mpr hm).symm
      · have h2 : i + j = (i + 1) + (j - 1) := by omega
        have hle : rest.length ≤ fuel := by
          simp only [List.length_cons] at hl
          omega
        rw [h2, ih rest hle (i + 1) (j - 1)]
        have h3 : (c :: rest).drop j = rest.drop (j - 1) := by
          have hj : j = (j - 1) + 1 := by omega
          conv_lhs => rw [hj]
          rw [List.drop_succ_cons]
        rw [h3]

/-- Shape of every reported location: the end offset is 42 past the start,
and the content is the 42-character substring at the start offset. -/
theorem findAddrAux_shape (fuel : Nat) :
    ∀ (l : List Nat) (i p : Nat), ∀ loc ∈ findAddrAux fuel l i p,
      loc.stop = loc.start + 42 ∧
        loc.content = (l.drop (loc.start - i)).take 42 ∧ i ≤ loc.start := by
  induction fuel with
  | zero => intro l i p loc h; simp [findAddrAux] at h
  | succ fuel ih =>
    intro l i p loc h
    rcases l with _ | ⟨c, rest⟩
    · simp [findAddrAux] at h
    simp only [findAddrAux] at h
    split_ifs at h with h1 h2
    · rcases List.mem_cons.mp h with rfl | h3
      · simp
      · obtain ⟨hstop, hcontent, hge⟩ := ih _ _ _ loc h3
        refine ⟨hstop, ?_, by omega⟩
        rw [hcontent, List.drop_drop]
        have : 42 + (loc.start - (i + 42)) = loc.start - i := by omega
        rw [this]
    · simp at h
    · obtain ⟨hstop, hcontent, hge⟩ := ih _ _ _ loc h
      refine ⟨hstop, ?_, by omega⟩
      rw [hcontent]
      have : loc.start - i = (loc.start - (i + 1)) + 1 := by omega
      rw [this, List.drop_succ_cons]

end DefiLs

namespace DefiLs

/-! ## Code-lens lemmas -/

theorem foldl_push_append {α β : Type} (l : List α) (f : α → β) :
    ∀ acc : List β, l.foldl (fun a e => a ++ [f e]) acc = acc ++ l.map f := by
  induction l with
  | nil => intro acc; simp
  | cons e rest ih => intro acc; simp [ih]

theorem pushEthereumAddressCodeLenses_eq (t : List Nat) (r : Nat × Nat)
    (content : List Nat) (acc : List CodeLens) :
    pushEthereumAddressCodeLenses t r content acc =
      acc ++ NETWORKS.map (fun network => ⟨r, [t, network, content]⟩) := by
  rw [pushEthereumAddressCodeLenses, foldl_push_append]

theorem foldl_filter_append {α β : Type} (cands : List α) (pred : α → Bool)
    (g : α → List β) :
    ∀ init : List β,
      cands.foldl (fun acc e => if pred e then acc ++ g e else acc) init =
        init ++ (cands.filter pred).flatMap g := by
  induction cands with
  | nil => intro init; simp
  | cons e rest ih =>
    intro init
    by_cases hp : pred e = true
    · simp [hp, ih, List.filter_cons]
    · rw [Bool.not_eq_true] at hp
      simp [hp, ih, List.filter_cons]

theorem diag_range_from_candidate (hash : List Nat → List Nat) (max : Nat)
    (text : List Nat) :
    (validateTextDocument hash max text).all
      (fun d => (findPossibleEthereumAddresses text).any
        (fun c => d.range == (c.start, c.stop))) = true := by
  rw [List.all_eq_true]
  intro d hd
  rw [validateTextDocument_eq, List.mem_filterMap] at hd
  obtain ⟨e, he, hde⟩ := hd
  have hmem : e ∈ findPossibleEthereumAddresses text :=
    List.mem_of_mem_take he
  rw [List.any_eq_true]
  exact ⟨e, hmem, by simp [diagFor_range hde]⟩

/-! ## Hover lemmas -/

theorem getHoverMarkdown_ok {x : Ext} {a : List Nat}
    (h : ∃ n, x.getBalance a = Except.ok n) :
    ∃ buf, getHoverMarkdownForAddress x a = Except.ok buf := by
  obtain ⟨n, hn⟩ := h
  unfold getHoverMarkdownForAddress
  rw [hn]
  exact ⟨_, rfl⟩

end DefiLs

namespace DefiLs

/-! ## reverse-ENS characterization helpers -/

theorem reverseENSLookup_of_none {x : Ext} {address : List Nat}
    (h : x.reverse address = none) : reverseENSLookup x address = [] := by
  unfold reverseENSLookup
  rw [h]

theorem reverseENSLookup_of_some {x : Ext} {address name : List Nat}
    (h : x.reverse address = some name) :
    reverseENSLookup x address =
      (match toChecksumAddress x.hash address,
          toChecksumAddress x.hash (ENSLookup x name) with
        | some a, some b => if a = b then name else []
        | _, _ => []) := by
  unfold reverseENSLookup
  rw [h]

/-! ## Block-scan helpers (evaluating the scanners on long documents
without deep kernel reduction) -/

theorem findAddrAux_nil (fuel i p : Nat) : findAddrAux fuel [] i p = [] := by
  cases fuel <;> rfl

theorem findPkAux_nil (fuel i p : Nat) : findPkAux fuel [] i p = [] := by
  cases fuel <;> rfl

theorem findAddrAux_step_match {l : List Nat} (hm : addrMatchAt l = true)
    (hne : l ≠ []) (fuel i p : Nat) (hp : p < 100) :
    findAddrAux (fuel + 1) l i p =
      ⟨i, i + 42, l.take 42⟩ :: findAddrAux fuel (l.drop 42) (i + 42) p := by
  rcases l with _ | ⟨c, rest⟩
  · exact absurd rfl hne
  · simp only [findAddrAux, if_pos hm, if_pos hp]

theorem findAddrAux_step_nomatch {c : Nat} {rest : List Nat}
    (hm : addrMatchAt (c :: rest) = false) (fuel i p : Nat) :
    findAddrAux (fuel + 1) (c :: rest) i p = findAddrAux fuel rest (i + 1) p := by
  simp only [findAddrAux]
  rw [if_neg (by simp [hm])]

theorem findPkAux_step_match {l : List Nat} (hm : pkMatchAt l = true)
    (hne : l ≠ []) (fuel i p : Nat) (hp : p < 100) :
    findPkAux (fuel + 1) l i p =
      ⟨i, i + 64, normalizeHex (l.take 64)⟩ ::
        findPkAux fuel (l.drop 64) (i + 64) p := by
  rcases l with _ | ⟨c, rest⟩
  · exact absurd rfl hne
  · simp only [findPkAux, if_pos hm, if_pos hp]

theorem findPkAux_step_nomatch {c : Nat} {rest : List Nat}
    (hm : pkMatchAt (c :: rest) = false) (fuel i p : Nat) :
    findPkAux (fuel + 1) (c :: rest) i p = findPkAux fuel rest (i + 1) p := by
  simp only [findPkAux]
  rw [if_neg (by simp [hm])]

theorem addrMatchAt_block (rest : List Nat) :
    addrMatchAt ((addrLower ++ [32]) ++ rest) = true := by
  simp only [addrMatchAt, Bool.and_eq_true, beq_iff_eq, decide_eq_true_eq]
  refine ⟨⟨⟨⟨?_, ?_⟩, ?_⟩, ?_⟩, ?_⟩
  · rw [List.getElem?_append_left (by decide)]; decide
  · rw [List.getElem?_append_left (by decide)]; decide
  · rw [List.length_append]
    have h : (addrLower ++ [32]).length = 43 := by decide
    omega
  · rw [List.drop_append_of_le_length (by decide),
      List.take_append_of_le_length (by decide)]
    decide
  · rw [List.drop_append_of_le_length (by decide)]
    have h : (addrLower ++ [32]).drop 42 = [32] := by decide
    rw [h, List.singleton_append]
    simp [boundaryAfter, isWordChar]

theorem addrMatchAt_space (rest : List Nat) :
    addrMatchAt (32 :: rest) = false := by
  simp [addrMatchAt]

theorem pkMatchAt_block (rest : List Nat) :
    pkMatchAt ((List.replicate 64 97 ++ [32]) ++ rest) = true := by
  simp only [pkMatchAt, Bool.and_eq_true, decide_eq_true_eq]
  refine ⟨⟨?_, ?_⟩, ?_⟩
  · rw [List.length_append]
    have h : (List.replicate 64 97 ++ [32]).length = 65 := by decide
    omega
  · rw [List.take_append_of_le_length (by decide)]
    decide
  · rw [List.drop_append_of_le_length (by decide)]
    have h : (List.replicate 64 97 ++ [32]).drop 64 = [32] := by decide
    rw [h, List.singleton_append]
    simp [boundaryAfter, isWordChar]

theorem pkMatchAt_space (rest : List Nat) : pkMatchAt (32 :: rest) = false := by
  simp only [pkMatchAt]
  have h64 : (64 : Nat) = 63 + 1 := rfl
  rw [h64, List.take_succ_cons]
  simp [isHexChar]

theorem scanBlocks_length :
    ∀ (n i fuel : Nat), 43 * n ≤ fuel →
      (findAddrAux fuel
        ((List.replicate n (addrLower ++ [32])).flatten) i 0).length = n := by
  intro n
  induction n with
  | zero => intro i fuel _; simp [findAddrAux_nil]
  | succ n ih =>
    intro i fuel hf
    obtain ⟨fuel1, rfl⟩ : ∃ f, fuel = f + 1 := ⟨fuel - 1, by omega⟩
    rw [List.replicate_succ, List.flatten_cons]
    rw [findAddrAux_step_match (addrMatchAt_block _) (by simp) fuel1 i 0
      (by omega)]
    have hdrop : ((addrLower ++ [32]) ++
        (List.replicate n (addrLower ++ [32])).flatten).drop 42 =
        32 :: (List.replicate n (addrLower ++ [32])).flatten := by
      rw [List.drop_append_of_le_length (by decide)]
      have h : (addrLower ++ [32]).drop 42 = [32] := by decide
      rw [h, List.singleton_append]
    rw [hdrop]
    obtain ⟨fuel2, rfl⟩ : ∃ f, fuel1 = f + 1 := ⟨fuel1 - 1, by omega⟩
    rw [findAddrAux_step_nomatch (addrMatchAt_space _) fuel2 (i + 42) 0]
    rw [List.length_cons, ih (i + 42 + 1) fuel2 (by omega)]

theorem scanPkBlocks_length :
    ∀ (n i fuel : Nat), 65 * n ≤ fuel →
      (findPkAux fuel
        ((List.replicate n (List.replicate 64 97 ++ [32])).flatten) i 0).length
        = n := by
  intro n
  induction n with
  | zero => intro i fuel _; simp [findPkAux_nil]
  | succ n ih =>
    intro i fuel hf
    obtain ⟨fuel1, rfl⟩ : ∃ f, fuel = f + 1 := ⟨fuel - 1, by omega⟩
    rw [List.replicate_succ, List.flatten_cons]
    rw [findPkAux_step_match (pkMatchAt_block _) (by simp) fuel1 i 0
      (by omega)]
    have hdrop : ((List.replicate 64 97 ++ [32]) ++
        (List.replicate n (List.replicate 64 97 ++ [32])).flatten).drop 64 =
        32 :: (List.replicate n (List.replicate 64 97 ++ [32])).flatten := by
      rw [List.drop_append_of_le_length (by decide)]
      have h : (List.replicate 64 97 ++ [32]).drop 64 = [32] := by decide
      rw [h, List.singleton_append]
    rw [hdrop]
    obtain ⟨fuel2, rfl⟩ : ∃ f, fuel1 = f + 1 := ⟨fuel1 - 1, by omega⟩
    rw [findPkAux_step_nomatch (pkMatchAt_space _) fuel2 (i + 64) 0]
    rw [List.length_cons, ih (i + 64 + 1) fuel2 (by omega)]

/-! ## Claim theorems -/

/-- Claim C1 (amended): for each address candidate among the first
max-problems, the diagnostics pass emits at most one diagnostic — an
invalid-address error or a not-checksummed warning — and never any other
kind (no ENS-available or contract-detected hints exist); a valid,
already-checksummed candidate produces no diagnostic, and the total number
of diagnostics never exceeds the budget. -/
theorem c1_diagnostic_emission (hash : List Nat → List Nat) (max : Nat)
    (text : List Nat) :
    validateTextDocument hash max text =
        ((findPossibleEthereumAddresses text).take max).filterMap (diagFor hash)
    ∧ (validateTextDocument hash max text).all
        (fun d => d.code == str "NotValidAddress" ||
          d.code == str "NotChecksumAddress") = true
    ∧ (validateTextDocument hash max text).length ≤ max := by
  refine ⟨validateTextDocument_eq hash max text, ?_, ?_⟩
  · rw [List.all_eq_true]
    intro d hd
    rw [validateTextDocument_eq, List.mem_filterMap] at hd
    obtain ⟨e, _, hde⟩ := hd
    rcases diagFor_code hde with h | h <;> simp [h]
  · rw [validateTextDocument_eq]
    refine le_trans (List.length_filterMap_le _ _) ?_
    rw [List.length_take]
    exact Nat.min_le_left _ _

/-- Claim C1 counterexample: a valid, already-checksummed candidate (under
`hash0`) receives zero diagnostics, not "exactly one of four"; and the
not-checksummed warning produced under `hash8` does not carry the
checksummed replacement (`addrUpper`) anywhere in its payload. -/
theorem c1_counterexample :
    ((findPossibleEthereumAddresses exampleDoc).length = 1
      ∧ validateTextDocument hash0 1000 exampleDoc = [])
    ∧ ((validateTextDocument hash8 1000 exampleDoc).length = 1
      ∧ (validateTextDocument hash8 1000 exampleDoc).all
          (fun d => !(containsSeq addrUpper d.message)) = true) := by
  decide

/-- Claim C2: the reverse-ENS lookup returns a non-empty name only when the
checksum-normalized forward resolution of that name equals the
checksum-normalized input address; a mismatching forward resolution, or a
failed reverse lookup, yields the empty result. -/
theorem c2_reverse_roundtrip (x : Ext) (address : List Nat) :
    (reverseENSLookup x address ≠ [] →
      x.reverse address = some (reverseENSLookup x address) ∧
      ∃ ca, toChecksumAddress x.hash address = some ca ∧
        toChecksumAddress x.hash
          (ENSLookup x (reverseENSLookup x address)) = some ca)
    ∧ (∀ name, x.reverse address = some name →
        toChecksumAddress x.hash (ENSLookup x name) ≠
          toChecksumAddress x.hash address →
        reverseENSLookup x address = [])
    ∧ (x.reverse address = none → reverseENSLookup x address = []) := by
  refine ⟨?_, ?_, ?_⟩
  · intro hne
    rcases hr : x.reverse address with _ | name
    · exact absurd (reverseENSLookup_of_none hr) hne
    · have hv := reverseENSLookup_of_some hr
      rcases hca : toChecksumAddress x.hash address with _ | a <;>
        rcases hcb : toChecksumAddress x.hash (ENSLookup x name) with _ | b <;>
        rw [hca, hcb] at hv <;> dsimp only at hv
      · exact absurd hv hne
      · exact absurd hv hne
      · exact absurd hv hne
      · split_ifs at hv with hab
        · rw [hv]
          exact ⟨rfl, a, rfl, by rw [hcb, hab]⟩
        · exact absurd hv hne
  · intro name hr hne
    have hv := reverseENSLookup_of_some hr
    rcases hca : toChecksumAddress x.hash address with _ | a <;>
      rcases hcb : toChecksumAddress x.hash (ENSLookup x name) with _ | b <;>
      rw [hca, hcb] at hv <;> dsimp only at hv
    · exact hv
    · exact hv
    · exact hv
    · rw [hca, hcb] at hne
      rw [if_neg (fun hab => hne (by rw [hab]))] at hv
      exact hv
  · exact reverseENSLookup_of_none

/-- Claim C2 witness: a spoofed reverse record (`vitalik.eth`) whose
forward resolution yields a different address is rejected. -/
theorem c2_witness : reverseENSLookup extSpoof addrLower = [] :=
  (c2_reverse_roundtrip extSpoof addrLower).2.1 (str "vitalik.eth") rfl
    (by decide)

/-- Claim C3 (amended): the scanner reports a candidate exactly at the
positions where the text holds `0x`, then exactly 40 hex characters, then a
word boundary (end of text or a character that is not alphanumeric or
underscore — JavaScript `\b`); each reported location spans exactly those
42 characters and carries the matched substring. -/
theorem c3_scanner_characterization (text : List Nat) (j : Nat) :
    ((findPossibleEthereumAddresses text).any fun loc => loc.start == j) =
        addrMatchAt (text.drop j)
    ∧ (findPossibleEthereumAddresses text).all
        (fun loc => (loc.stop == loc.start + 42) &&
          (loc.content == (text.drop loc.start).take 42)) = true := by
  constructor
  · have h := findAddrAux_any text.length text le_rfl 0 j
    simpa using h
  · rw [List.all_eq_true]
    intro loc hloc
    obtain ⟨hstop, hcontent, _⟩ :=
      findAddrAux_shape text.length text 0 0 loc hloc
    simp [hstop, hcontent]

/-- Claim C3 counterexample: `0x`, forty hex digits, then `_`.  The
underscore is not a hex/alnum character, so the phrasing of the claim demands
a reported candidate at position 0 — but `_` is a regex word character, so
`\b` fails and the scanner reports nothing. -/
theorem c3_counterexample :
    (underscoreDoc.take 2 = str "0x"
      ∧ ((underscoreDoc.drop 2).take 40).all isHexChar = true
      ∧ underscoreDoc[42]? = some 95
      ∧ isAlphaNum 95 = false)
    ∧ findPossibleEthereumAddresses underscoreDoc = [] := by
  decide

end DefiLs

namespace DefiLs

/-- Claim C4: the code-action handler produces exactly one quick fix per
diagnostic with code `NotChecksumAddress` (and none for any other code),
whose workspace edit holds exactly one text edit replacing exactly the
range of the diagnostic with `toChecksumAddress` of the document text in
that range. -/
theorem c4_quickfix_per_diagnostic (hash : List Nat → List Nat)
    (text : List Nat) :
    ∀ (diags : List Diag),
      (∀ d ∈ diags, d.code = str "NotChecksumAddress" →
        (toChecksumAddress hash (getTextRange text d.range)).isSome = true) →
      getQuickFixes hash text diags =
        some ((diags.filter (fun d => d.code == str "NotChecksumAddress")).map
          (fun d => getQuickFix d (str "Convert to checksum address") d.range
            ((toChecksumAddress hash (getTextRange text d.range)).getD []))) := by
  intro diags
  induction diags with
  | nil => intro _; rfl
  | cons d rest ih =>
    intro h
    by_cases hc : d.code = str "NotChecksumAddress"
    · have hsome := h d (by simp) hc
      rcases hrep : toChecksumAddress hash (getTextRange text d.range)
        with _ | rep
      · rw [hrep] at hsome; simp at hsome
      · simp only [getQuickFixes, if_pos hc, hrep]
        rw [ih (fun e he hce => h e (by simp [he]) hce)]
        simp [List.filter_cons, hc, hrep]
    · simp only [getQuickFixes, if_neg hc]
      rw [ih (fun e he hce => h e (by simp [he]) hce)]
      simp [List.filter_cons, hc]

/-- Claim C4 witness: for a not-checksummed diagnostic over the lowercase
address, the handler produces exactly one fix replacing the range of the
diagnostic with the checksummed form. -/
theorem c4_witness :
    getQuickFixes hash8 exampleDoc
        [⟨2, (0, 42), str "msg", str "NotChecksumAddress"⟩] =
      some [⟨str "Convert to checksum address", [((0, 42), addrUpper)],
        [⟨2, (0, 42), str "msg", str "NotChecksumAddress"⟩]⟩] := by
  rw [c4_quickfix_per_diagnostic hash8 exampleDoc
    [⟨2, (0, 42), str "msg", str "NotChecksumAddress"⟩] (by decide)]
  decide

/-- Claim C5: the code-lens handler emits exactly one lens per network (the
five supported networks) for every valid address candidate and for every
private-key candidate that decodes, the latter carrying the derived public
address; candidates failing decode contribute no lens, and diagnostics only
ever sit on address-candidate ranges, so a failed 64-hex candidate gets
neither lens nor diagnostic. -/
theorem c5_codelens_per_network (x : Ext) (text : List Nat) (max : Nat) :
    onCodeLens x text =
        ((findPossibleEthereumAddresses text).filter
          (fun e => isValidEthereumAddress x.hash e.content)).flatMap
          (fun e => NETWORKS.map fun network =>
            ⟨(e.start, e.stop), [str "EthAddress", network, e.content]⟩) ++
        ((findPossiblePrivateKeys text).filter
          (fun e => x.isPK e.content)).flatMap
          (fun e => NETWORKS.map fun network =>
            ⟨(e.start, e.stop), [str "EthPrivateKey", network,
              x.toPub e.content]⟩)
    ∧ NETWORKS.length = 5
    ∧ (validateTextDocument x.hash max text).all
        (fun d => (findPossibleEthereumAddresses text).any
          (fun c => d.range == (c.start, c.stop))) = true := by
  refine ⟨?_, rfl, diag_range_from_candidate x.hash max text⟩
  unfold onCodeLens
  simp only [pushEthereumAddressCodeLenses_eq]
  rw [foldl_filter_append, foldl_filter_append]
  simp

/-- Claim C6 evaluation: the 100-match safety cap is dead code — the loop
counter guarding it is never incremented — so a document with 101 address
candidates yields 101 scan results, and likewise for the private-key scan. -/
theorem c6_cap_not_enforced :
    (findPossibleEthereumAddresses doc101).length = 101 ∧
    (findPossiblePrivateKeys docPk101).length = 101 := by
  constructor
  · have hdoc : doc101 = (List.replicate 101 (addrLower ++ [32])).flatten := rfl
    have hb : (addrLower ++ [32]).length = 43 := by decide
    have hlen : ((List.replicate 101 (addrLower ++ [32])).flatten).length =
        43 * 101 := by
      rw [List.length_flatten, List.map_replicate, hb, List.sum_replicate,
        smul_eq_mul]
    rw [findPossibleEthereumAddresses, hdoc, hlen]
    exact scanBlocks_length 101 0 (43 * 101) le_rfl
  · have hdoc : docPk101 =
        (List.replicate 101 (List.replicate 64 97 ++ [32])).flatten := rfl
    have hb : (List.replicate 64 97 ++ [32]).length = 65 := by decide
    have hlen : ((List.replicate 101
        (List.replicate 64 97 ++ [32])).flatten).length = 65 * 101 := by
      rw [List.length_flatten, List.map_replicate, hb, List.sum_replicate,
        smul_eq_mul]
    rw [findPossiblePrivateKeys, hdoc, hlen]
    exact scanPkBlocks_length 101 0 (65 * 101) le_rfl

/-- Claim C7: `toChecksumAddress` is idempotent — applying it to its own
output returns that output unchanged, for every digest function and every
address accepted by its shape check. -/
theorem c7_toChecksumAddress_idempotent (hash : List Nat → List Nat)
    (x y : List Nat) (h : toChecksumAddress hash x = some y) :
    toChecksumAddress hash y = some y :=
  toChecksumAddress_fix hash x y h

/-- Claim C7 witness: under the all-8 digest the lowercase address
checksums to the uppercase form, which is a fixed point. -/
theorem c7_witness :
    toChecksumAddress hash8 addrLower = some addrUpper ∧
    toChecksumAddress hash8 addrUpper = some addrUpper :=
  ⟨by decide, c7_toChecksumAddress_idempotent hash8 addrLower addrUpper
    (by decide)⟩

/-- Claim C8 (amended): the hover handler returns a Hover whenever the
awaited balance fetch resolves — ENS lookup failures are caught internally
and merely omit their section — but a rejected balance fetch propagates
out of the handler as an error (and the fire-and-forget token request
never contributes to the response). -/
theorem c8_hover_total_when_balance_ok (x : Ext)
    (h : ∀ a, ∃ n, x.getBalance a = Except.ok n)
    (lineText : List Nat) (index : Nat) :
    ∃ buf, onHover x lineText index = Except.ok buf := by
  unfold onHover
  dsimp only
  split_ifs with h1 h2 h3
  · exact getHoverMarkdown_ok (h _)
  · exact getHoverMarkdown_ok (h _)
  · exact getHoverMarkdown_ok (h _)
  · exact ⟨[], rfl⟩

/-- Claim C8 witness: with every lookup failing except the balance fetch,
hovering an address still produces a Hover. -/
theorem c8_witness :
    ∃ buf, onHover extBase (str "send " ++ addrLower ++ str " now") 7 =
      Except.ok buf :=
  c8_hover_total_when_balance_ok extBase (fun _ => ⟨0, rfl⟩) _ 7

/-- Claim C8 counterexample: a rejected balance fetch escapes the hover
handler as an error instead of a best-effort Hover, so the claim that the handler
always returns a Hover even when an external call fails is false. -/
theorem c8_counterexample :
    onHover extBalErr (str "send " ++ addrLower ++ str " now") 7 =
      Except.error (str "netfail") := by
  decide

/-- Claim C9 (spec-modelled): a value written at time `T` is served without
refetch at any time strictly before `T + ttl`, and a read at or after
`T + ttl` triggers a refetch. -/
theorem c9_cache_freshness {α : Type} (ttl T now : Nat) (k : List Nat) (v : α)
    (cache : List (List Nat × CacheEntry α)) (fetch : List Nat → α)
    (hT : T ≤ now) :
    (now < T + ttl →
      lookupThroughCache ttl now (cachePut cache k v T) fetch k = (v, false))
    ∧ (T + ttl ≤ now →
      (lookupThroughCache ttl now (cachePut cache k v T) fetch k).2 = true) := by
  have hget : cacheGet (cachePut cache k v T) k = some ⟨T, v⟩ := by
    simp [cacheGet, cachePut, List.find?]
  constructor
  · intro h
    unfold lookupThroughCache
    rw [hget]
    dsimp only
    rw [if_pos (by simp only [isFresh, decide_eq_true_eq]; omega)]
  · intro h
    unfold lookupThroughCache
    rw [hget]
    dsimp only
    rw [if_neg (by simp only [isFresh, decide_eq_true_eq]; omega)]

/-- Claim C9 witness: with `ttl = 10` and a value written at `T = 5`, a
read at time 14 is served from cache without refetch and a read at time 15
refetches. -/
theorem c9_witness :
    lookupThroughCache 10 14 (cachePut ([] : List (List Nat × CacheEntry Nat))
        (str "k") 7 5) (fun _ => 0) (str "k") = (7, false) ∧
    (lookupThroughCache 10 15 (cachePut ([] : List (List Nat × CacheEntry Nat))
        (str "k") 7 5) (fun _ => 0) (str "k")).2 = true :=
  ⟨(c9_cache_freshness 10 5 14 (str "k") 7 [] (fun _ => 0) (by omega)).1
      (by omega),
    (c9_cache_freshness 10 5 15 (str "k") 7 [] (fun _ => 0) (by omega)).2
      (by omega)⟩

/-- Claim C10: every candidate among the first max-problems consumes one
budget slot whether or not it yields a diagnostic; consequently, when the
first max-problems candidates are all valid and already checksummed, later
candidates — however invalid — produce no diagnostic at all. -/
theorem c10_budget_consumption (hash : List Nat → List Nat) (max : Nat)
    (text : List Nat) :
    (validateTextDocument hash max text =
        ((findPossibleEthereumAddresses text).take max).filterMap
          (diagFor hash))
    ∧ (((findPossibleEthereumAddresses text).take max).all
          (fun e => isValidEthereumAddress hash e.content &&
            ((toChecksumAddress hash e.content).getD [] == e.content)) = true →
        validateTextDocument hash max text = []) := by
  refine ⟨validateTextDocument_eq hash max text, ?_⟩
  intro h
  rw [validateTextDocument_eq, List.filterMap_eq_nil_iff]
  intro e he
  rw [List.all_eq_true] at h
  have := h e he
  simp only [Bool.and_eq_true, beq_iff_eq] at this
  exact diagFor_none_of_checksummed this.1 this.2

/-- Claim C10 witness: with budget 1, a document whose first candidate is
valid and checksummed (under `hash0`) and whose second candidate is invalid
yields no diagnostics at all. -/
theorem c10_witness :
    (findPossibleEthereumAddresses twoCandDoc).length = 2 ∧
    isValidEthereumAddress hash0 addrBad = false ∧
    validateTextDocument hash0 1 twoCandDoc = [] :=
  ⟨by decide, by decide,
    (c10_budget_consumption hash0 1 twoCandDoc).2 (by decide)⟩

end DefiLs
